import Mathlib

/-!
Shallow embedding of the sliding-window statistics engine from
`src/analysis.rs` (struct `OHLC`, struct `MovingStatistics` with
operations `update`, `means`, `deviations`).

Modelling conventions:

* The `f32` fields of `OHLC` are modelled as exact rationals (`ℚ`).  Every
  value appearing in the verified scenarios (integer-valued bars up to 100,
  their sums up to 4950, and quotients with denominator 1 or 2) is exactly
  representable in `f32`, and every `f32` operation performed on them is
  exact, so the rational model agrees with the floating-point code on all
  inputs considered here.
* The `i64` fields (`time`, `count`) are modelled as unbounded `Int`;
  `i64` overflow plays no role in any scenario considered.  Rust's `/` on
  `i64` truncates towards zero, which is `Int.tdiv`.
* The `RBTree<i64, OHLC>` window is modelled as an association list sorted
  by strictly ascending key.  The tree comes from an external crate whose
  source is not part of this repository; its operations are modelled from
  the spec: `insert` stores the value under the key, overwriting the value
  of an already-present key, `pop_first` removes the entry with the least
  key, and iteration is in ascending key order.
* The engine's `RwLock` only serialises accesses; each operation's body is
  single-threaded, so operations are modelled as pure functions of the
  window contents (`update` returns the new window, `means`/`deviations`
  take `&self` and cannot modify the window).  The lock-poisoning error
  paths are infrastructure faults outside this model.
* Rust panics (out-of-bounds indexing, `usize` subtraction overflow in a
  debug build) are modelled by the explicit result `RResult.panicked`;
  `Err(msg)` is `RResult.error msg` and `Ok(v)` is `RResult.ok v`.
* `HashMap<usize, Vec<OHLC>>` values are modelled as association lists in
  iteration/insertion order; none of the verified scenarios depends on the
  hash-map's key order or on duplicate requested lengths.
-/

/-- Result of a Rust function that can panic or return `Result<α, String>`. -/
inductive RResult (α : Type) where
  | panicked
  | error (msg : String)
  | ok (val : α)
deriving DecidableEq

/-- The price-bar record of `src/analysis.rs` (`struct OHLC`), with `f32`
fields modelled as `ℚ` and `i64` fields as `Int`. -/
structure OHLC where
  time : Int
  «open» : ℚ
  high : ℚ
  low : ℚ
  close : ℚ
  vwap : ℚ
  volume : ℚ
  count : Int
deriving DecidableEq

namespace OHLC

/-- `OHLC::new_zero`: the all-zero bar. -/
def zero : OHLC := ⟨0, 0, 0, 0, 0, 0, 0, 0⟩

/-- `impl Add for OHLC`: field-wise sum. -/
def add (a b : OHLC) : OHLC :=
  ⟨a.time + b.time, a.«open» + b.«open», a.high + b.high, a.low + b.low,
   a.close + b.close, a.vwap + b.vwap, a.volume + b.volume, a.count + b.count⟩

/-- `impl Sub for OHLC`: field-wise difference. -/
def sub (a b : OHLC) : OHLC :=
  ⟨a.time - b.time, a.«open» - b.«open», a.high - b.high, a.low - b.low,
   a.close - b.close, a.vwap - b.vwap, a.volume - b.volume, a.count - b.count⟩

/-- `impl Div<usize> for OHLC`: field-wise division, truncated (`i64`)
division on `time` and `count`, exact (`f32`) division on the rest. -/
def div (a : OHLC) (rhs : Nat) : OHLC :=
  ⟨a.time.tdiv rhs, a.«open» / rhs, a.high / rhs, a.low / rhs,
   a.close / rhs, a.vwap / rhs, a.volume / rhs, a.count.tdiv rhs⟩

end OHLC

/-- The engine's window: the `RBTree<i64, OHLC>` contents as an ascending
association list. -/
abbrev Window := List (Int × OHLC)

namespace RBTree

/-- Modelled from the spec: `RBTree::insert` stores `v` under key `k`,
keeping ascending key order; "inserting a bar with a timestamp already
present overwrites that slot's value".  (The tree crate's source is not
part of this repository.) -/
def insert : Window → Int → OHLC → Window
  | [], k, v => [(k, v)]
  | (k', v') :: rest, k, v =>
    if k < k' then (k, v) :: (k', v') :: rest
    else if k = k' then (k, v) :: rest
    else (k', v') :: insert rest k v

/-- Modelled from the spec: `RBTree::pop_first` removes and returns the
entry with the smallest key, if any. -/
def popFirst : Window → Option ((Int × OHLC) × Window)
  | [] => none
  | p :: rest => some (p, rest)

end RBTree

/-- `MovingStatistics::update` for an engine of capacity `W` whose window
currently holds `s`: if the window is at capacity, pop the least-key entry
(capturing its value) before inserting; an empty pop returns early without
inserting.  Returns the `Ok` payload (`Option OHLC`) and the new window. -/
def update (W : Nat) (s : Window) (unit : OHLC) : Option OHLC × Window :=
  if s.length = W then
    match RBTree.popFirst s with
    | none => (none, s)
    | some (pair, rest) => (some pair.2, RBTree.insert rest unit.time unit)
  else (none, RBTree.insert s unit.time unit)

/-- Runs a sequence of `update` calls, returning the final window and the
list of returned eviction results (in call order). -/
def runUpdates (W : Nat) (s : Window) : List OHLC → Window × List (Option OHLC)
  | [] => (s, [])
  | u :: us =>
    let r := update W s u
    let rec' := runUpdates W r.2 us
    (rec'.1, r.1 :: rec'.2)

/-- The domain-error message of `means`/`deviations` for a requested window
length larger than the configured capacity. -/
def overflowMsg (w W : Nat) : String :=
  "Tried to analyse moving window (" ++ toString w ++
    ") that was larger than universe window " ++ toString W ++ "."

/-- The initial validation loop of `MovingStatistics::means`: the first
requested length exceeding the capacity produces the domain error. -/
def checkWindows (W : Nat) : List Nat → Option String
  | [] => none
  | w :: ws => if W < w then some (overflowMsg w W) else checkWindows W ws

/-- The prefix-sum sequence of `means`: emits the running sum *before* each
element, then pushes the final total, so the result has one more entry than
the input (`S[0] = zero`, `S[i] = bar[0] + ... + bar[i-1]`). -/
def prefixSums : List OHLC → OHLC → List OHLC
  | [], acc => [acc]
  | b :: bs, acc => acc :: prefixSums bs (acc.add b)

/-- Evaluates `f` left to right, propagating the first panic (`none`). -/
def optMap (f : Nat → Option OHLC) : List Nat → Option (List OHLC)
  | [] => some []
  | i :: is =>
    match f i with
    | none => none
    | some v =>
      match optMap f is with
      | none => none
      | some vs => some (v :: vs)

/-- The per-length loop of `means`: for each requested length `w`,
`number_shifts = W - (w - 1)` moving averages
`(S[i + w] - S[i]) / w` are collected; an out-of-bounds prefix-sum index
is a panic, as is the `usize` underflow of `w - 1` when `w = 0` (debug
build). -/
def meansCalc (W : Nat) (ps : List OHLC) : List Nat → Option (List (Nat × List OHLC))
  | [] => some []
  | w :: ws =>
    if w = 0 then none
    else
      match optMap (fun i =>
          match ps.get? (i + w), ps.get? i with
          | some a, some b => some ((a.sub b).div w)
          | _, _ => none) (List.range (W - (w - 1))) with
      | none => none
      | some avg =>
        match meansCalc W ps ws with
        | none => none
        | some rest => some ((w, avg) :: rest)

/-- `MovingStatistics::means` on an engine of capacity `W` whose window
holds `s`, for the requested lengths `windows`. -/
def means (W : Nat) (s : Window) (windows : List Nat) :
    RResult (List (Nat × List OHLC)) :=
  match checkWindows W windows with
  | some msg => RResult.error msg
  | none =>
    match meansCalc W (prefixSums (s.map Prod.snd) OHLC.zero) windows with
    | none => RResult.panicked
    | some m => RResult.ok m

/-- The domain-error message of `deviations` for a supplied average
sequence of the wrong length. -/
def lenMsg (w expected found : Nat) : String :=
  "Means passed to deviation calculation don't have correct length for window "
    ++ toString w ++ ": expected " ++ toString expected ++ ", found "
    ++ toString found

/-- The validation loop of `MovingStatistics::deviations`: each supplied
length must be at most the capacity and each supplied sequence must have
length `W - w + 1` (both relative to the capacity `W`). -/
def checkDevs (W : Nat) : List (Nat × List OHLC) → Option String
  | [] => none
  | (w, vs) :: rest =>
    if W < w then some (overflowMsg w W)
    else if vs.length ≠ W - w + 1 then some (lenMsg w (W - w + 1) vs.length)
    else checkDevs W rest

/-- The `cloned` accumulator of `deviations`: one all-zero vector of the
same length per supplied entry. -/
def initCloned (ms : List (Nat × List OHLC)) : List (Nat × List OHLC) :=
  ms.map (fun p => (p.1, p.2.map (fun _ => OHLC.zero)))

/-- Adds `d` to the element at index `idx` (`cloned[window][idx] += d`);
`none` models the out-of-bounds panic. -/
def listUpdate : List OHLC → Nat → OHLC → Option (List OHLC)
  | [], _, _ => none
  | x :: xs, 0, d => some ((x.add d) :: xs)
  | x :: xs, n + 1, d =>
    match listUpdate xs n d with
    | none => none
    | some ys => some (x :: ys)

/-- Updates the accumulator vector stored under key `w`
(`cloned[window][idx] += d`); `none` models a panic (absent key or
out-of-bounds index). -/
def clonedUpdate : List (Nat × List OHLC) → Nat → Nat → OHLC → Option (List (Nat × List OHLC))
  | [], _, _, _ => none
  | (w', vs) :: rest, w, idx, d =>
    if w' = w then
      match listUpdate vs idx d with
      | none => none
      | some vs' => some ((w', vs') :: rest)
    else
      match clonedUpdate rest w idx d with
      | none => none
      | some rest' => some ((w', vs) :: rest')

/-- The innermost loop of `deviations`:
`for shift in 0..window { cloned[window][index + shift] += deviation }`. -/
def addShifts (w idx : Nat) (d : OHLC) : List Nat → List (Nat × List OHLC) → Option (List (Nat × List OHLC))
  | [], cl => some cl
  | sh :: rest, cl =>
    match clonedUpdate cl w (idx + sh) d with
    | none => none
    | some cl' => addShifts w idx d rest cl'

/-- The middle loop of `deviations`: for each supplied `(window, values)`
pair, `deviation = ohlc - values[index]` (an out-of-bounds index is a
panic), then the shift loop. -/
def devInner (idx : Nat) (b : OHLC) : List (Nat × List OHLC) → List (Nat × List OHLC) → Option (List (Nat × List OHLC))
  | [], cl => some cl
  | (w, values) :: rest, cl =>
    match values.get? idx with
    | none => none
    | some m =>
      match addShifts w idx (b.sub m) (List.range w) cl with
      | none => none
      | some cl' => devInner idx b rest cl'

/-- The outer loop of `deviations`: over the window entries with their
enumeration index. -/
def devOuter (ms : List (Nat × List OHLC)) : Nat → Window → List (Nat × List OHLC) → Option (List (Nat × List OHLC))
  | _, [], cl => some cl
  | idx, (_, b) :: rest, cl =>
    match devInner idx b ms cl with
    | none => none
    | some cl' => devOuter ms (idx + 1) rest cl'

/-- `MovingStatistics::deviations` on an engine of capacity `W` whose
window holds `s`, for the supplied means `ms`: validation, then the
accumulation (whose result is discarded), then the unconditional
`Err("Not implemented yet")`. -/
def deviations (W : Nat) (s : Window) (ms : List (Nat × List OHLC)) :
    RResult (List (Nat × List OHLC)) :=
  match checkDevs W ms with
  | some msg => RResult.error msg
  | none =>
    match devOuter ms 0 s (initCloned ms) with
    | none => RResult.panicked
    | some _ => RResult.error "Not implemented yet"

/-- Sum of a list of bars (used to state what a moving average is). -/
def sumL : List OHLC → OHLC
  | [] => OHLC.zero
  | b :: bs => b.add (sumL bs)

/-- Sum of the `L` consecutive bars starting at position `i`. -/
def rangeSum (bars : List OHLC) (i L : Nat) : OHLC :=
  sumL ((bars.drop i).take L)

/-- The test fixture `const_ohlc`: every field of the bar is the index. -/
def constBar (i : Nat) : OHLC :=
  ⟨(i : Int), (i : ℚ), (i : ℚ), (i : ℚ), (i : ℚ), (i : ℚ), (i : ℚ), (i : Int)⟩

/-- The full capacity-100 window of the analytical test scenario: bar `i`
(every field `i`) stored under key `i`, for `i` in `0..100`. -/
def win100 : Window :=
  (List.range 100).map (fun i => (Int.ofNat i, constBar i))

/-- Ascending-key ordering invariant of the modelled tree. -/
abbrev WSorted (s : Window) : Prop :=
  List.Pairwise (fun a b : Int × OHLC => a.1 < b.1) s

/-! ### Algebraic facts about the bar arithmetic -/

theorem OHLC.add_zero (a : OHLC) : a.add OHLC.zero = a := by
  cases a; simp [OHLC.add, OHLC.zero]

theorem OHLC.zero_add (a : OHLC) : OHLC.zero.add a = a := by
  cases a; simp [OHLC.add, OHLC.zero]

theorem OHLC.add_assoc (a b c : OHLC) : (a.add b).add c = a.add (b.add c) := by
  cases a; cases b; cases c
  simp only [OHLC.add, OHLC.mk.injEq]
  refine ⟨?_, ?_, ?_, ?_, ?_, ?_, ?_, ?_⟩ <;> ring

theorem OHLC.add_sub_add_cancel (c a b : OHLC) :
    (c.add (a.add b)).sub (c.add a) = b := by
  cases a; cases b; cases c
  simp only [OHLC.add, OHLC.sub, OHLC.mk.injEq]
  refine ⟨?_, ?_, ?_, ?_, ?_, ?_, ?_, ?_⟩ <;> ring

theorem OHLC.div_one (a : OHLC) : a.div 1 = a := by
  cases a; simp [OHLC.div, Int.tdiv_one]

/-! ### Sums and prefix sums -/

theorem sumL_append (xs ys : List OHLC) :
    sumL (xs ++ ys) = (sumL xs).add (sumL ys) := by
  induction xs with
  | nil => simp [sumL, OHLC.zero_add]
  | cons x xs ih => simp [sumL, ih, OHLC.add_assoc]

theorem prefixSums_length (l : List OHLC) (acc : OHLC) :
    (prefixSums l acc).length = l.length + 1 := by
  induction l generalizing acc with
  | nil => simp [prefixSums]
  | cons b bs ih => simp [prefixSums, ih]

theorem prefixSums_get? (l : List OHLC) (acc : OHLC) (i : Nat)
    (hi : i ≤ l.length) :
    (prefixSums l acc).get? i = some (acc.add (sumL (l.take i))) := by
  induction l generalizing acc i with
  | nil =>
    have h0 : i = 0 := by simpa using hi
    subst h0
    simp [prefixSums, sumL, OHLC.add_zero]
  | cons b bs ih =>
    cases i with
    | zero => simp [prefixSums, sumL, OHLC.add_zero]
    | succ j =>
      have hj : j ≤ bs.length := by simpa using hi
      simp only [prefixSums, List.get?_cons_succ, List.take_succ_cons, sumL]
      rw [ih (acc.add b) j hj, OHLC.add_assoc]

/-! ### Range bookkeeping -/

theorem take_range'_aux : ∀ (L n s : Nat), L ≤ n →
    (List.range' s n).take L = List.range' s L := by
  intro L
  induction L with
  | zero => intro n s _; simp
  | succ L ih =>
    intro n s h
    cases n with
    | zero => omega
    | succ m =>
      simp only [List.range'_succ, List.take_succ_cons]
      rw [ih m (s + 1) (by omega)]

theorem drop_range'_aux : ∀ (i n s : Nat), i ≤ n →
    (List.range' s n).drop i = List.range' (s + i) (n - i) := by
  intro i
  induction i with
  | zero => intro n s _; simp
  | succ i ih =>
    intro n s h
    cases n with
    | zero => omega
    | succ m =>
      simp only [List.range'_succ, List.drop_succ_cons]
      rw [ih m (s + 1) (by omega)]
      congr 1 <;> omega

theorem take_drop_range (n i L : Nat) (h : i + L ≤ n) :
    ((List.range n).drop i).take L = List.range' i L := by
  rw [List.range_eq_range', drop_range'_aux i n 0 (by omega)]
  simp only [Nat.zero_add]
  rw [take_range'_aux L (n - i) i (by omega)]

theorem rangeSum_map_range (f : Nat → OHLC) (n i L : Nat) (h : i + L ≤ n) :
    rangeSum ((List.range n).map f) i L = sumL ((List.range' i L).map f) := by
  unfold rangeSum
  rw [← List.map_drop, ← List.map_take, take_drop_range n i L h]

/-! ### The means computation on a full window -/

theorem optMap_eq_map (f : Nat → Option OHLC) (g : Nat → OHLC) :
    ∀ l : List Nat, (∀ i ∈ l, f i = some (g i)) → optMap f l = some (l.map g) := by
  intro l
  induction l with
  | nil => intro _; simp [optMap]
  | cons i is ih =>
    intro h
    have hi := h i (by simp)
    have hrest : ∀ j ∈ is, f j = some (g j) := fun j hj => h j (by simp [hj])
    simp [optMap, hi, ih hrest]

theorem checkWindows_eq_none (W : Nat) :
    ∀ ws : List Nat, (∀ w ∈ ws, w ≤ W) → checkWindows W ws = none := by
  intro ws
  induction ws with
  | nil => intro _; simp [checkWindows]
  | cons w ws ih =>
    intro h
    have hw : ¬ W < w := by
      have := h w (by simp)
      omega
    simp [checkWindows, hw]
    exact ih (fun v hv => h v (by simp [hv]))

theorem checkWindows_first_error (W : Nat) :
    ∀ ws : List Nat, (∃ w ∈ ws, W < w) →
      ∃ w ∈ ws, W < w ∧ checkWindows W ws = some (overflowMsg w W) := by
  intro ws
  induction ws with
  | nil => rintro ⟨w, hw, _⟩; simp at hw
  | cons v vs ih =>
    rintro ⟨w, hw, hWw⟩
    by_cases hv : W < v
    · exact ⟨v, by simp, hv, by simp [checkWindows, hv]⟩
    · have hwvs : w ∈ vs := by
        rcases List.mem_cons.1 hw with h | h
        · subst h; omega
        · exact h
      rcases ih ⟨w, hwvs, hWw⟩ with ⟨u, hu, hWu, heq⟩
      exact ⟨u, by simp [hu], hWu, by simpa [checkWindows, hv] using heq⟩

theorem prefix_diff (bars : List OHLC) (i w : Nat) :
    (sumL (bars.take (i + w))).sub (sumL (bars.take i)) = rangeSum bars i w := by
  have hsplit : bars.take (i + w) = bars.take i ++ (bars.drop i).take w :=
    List.take_add bars i w
  rw [rangeSum, hsplit, sumL_append]
  have := OHLC.add_sub_add_cancel OHLC.zero (sumL (bars.take i))
    (sumL ((bars.drop i).take w))
  calc ((sumL (bars.take i)).add (sumL ((bars.drop i).take w))).sub (sumL (bars.take i))
      = ((OHLC.zero.add ((sumL (bars.take i)).add (sumL ((bars.drop i).take w)))).sub
          (OHLC.zero.add (sumL (bars.take i)))) := by
        rw [OHLC.zero_add, OHLC.zero_add]
    _ = sumL ((bars.drop i).take w) := this

theorem meansCalc_full (W : Nat) (bars : List OHLC) (hlen : bars.length = W) :
    ∀ ws : List Nat, (∀ w ∈ ws, 1 ≤ w ∧ w ≤ W) →
      meansCalc W (prefixSums bars OHLC.zero) ws =
        some (ws.map (fun w => (w, (List.range (W - w + 1)).map
          (fun i => (rangeSum bars i w).div w)))) := by
  intro ws
  induction ws with
  | nil => intro _; simp [meansCalc]
  | cons w ws ih =>
    intro h
    obtain ⟨hw1, hwW⟩ := h w (by simp)
    have hw0 : ¬ w = 0 := by omega
    have hshift : W - (w - 1) = W - w + 1 := by omega
    have hpoint : ∀ i ∈ List.range (W - w + 1),
        (match (prefixSums bars OHLC.zero).get? (i + w),
               (prefixSums bars OHLC.zero).get? i with
         | some a, some b => some ((a.sub b).div w)
         | _, _ => none) = some ((rangeSum bars i w).div w) := by
      intro i hi
      have hiW : i + w ≤ W := by
        have := List.mem_range.1 hi
        omega
      have h1 : (prefixSums bars OHLC.zero).get? (i + w) =
          some (OHLC.zero.add (sumL (bars.take (i + w)))) :=
        prefixSums_get? bars OHLC.zero (i + w) (by omega)
      have h2 : (prefixSums bars OHLC.zero).get? i =
          some (OHLC.zero.add (sumL (bars.take i))) :=
        prefixSums_get? bars OHLC.zero i (by omega)
      rw [h1, h2]
      have hdiff : ((OHLC.zero.add (sumL (bars.take (i + w)))).sub
          (OHLC.zero.add (sumL (bars.take i)))) = rangeSum bars i w := by
        rw [OHLC.zero_add, OHLC.zero_add]
        exact prefix_diff bars i w
      show some (((OHLC.zero.add (sumL (bars.take (i + w)))).sub
          (OHLC.zero.add (sumL (bars.take i)))).div w) =
        some ((rangeSum bars i w).div w)
      rw [hdiff]
    have hopt := optMap_eq_map _ (fun i => (rangeSum bars i w).div w)
      (List.range (W - w + 1)) hpoint
    have hrest : ∀ v ∈ ws, 1 ≤ v ∧ v ≤ W := fun v hv => h v (by simp [hv])
    simp only [meansCalc, hw0, if_false, hshift, hopt, ih hrest]
    simp

theorem means_full_spec (W : Nat) (s : Window) (winds : List Nat)
    (hfull : s.length = W) (hw : ∀ L ∈ winds, 1 ≤ L ∧ L ≤ W) :
    means W s winds = RResult.ok (winds.map (fun L => (L,
      (List.range (W - L + 1)).map
        (fun i => (rangeSum (s.map Prod.snd) i L).div L)))) := by
  have hchk : checkWindows W winds = none :=
    checkWindows_eq_none W winds (fun w hw' => (hw w hw').2)
  have hbars : (s.map Prod.snd).length = W := by simpa using hfull
  have hcalc := meansCalc_full W (s.map Prod.snd) hbars winds hw
  simp [means, hchk, hcalc]

/-! ### Facts about the modelled ordered store -/

theorem RBTree.insert_length_le (k : Int) (v : OHLC) :
    ∀ s : Window, (RBTree.insert s k v).length ≤ s.length + 1 := by
  intro s
  induction s with
  | nil => simp [RBTree.insert]
  | cons p rest ih =>
    obtain ⟨k', v'⟩ := p
    by_cases h1 : k < k'
    · simp [RBTree.insert, h1]
    · by_cases h2 : k = k'
      · simp [RBTree.insert, h1, h2]
      · simpa [RBTree.insert, h1, h2] using ih

theorem RBTree.mem_insert (k : Int) (v : OHLC) :
    ∀ (s : Window) (p : Int × OHLC), p ∈ RBTree.insert s k v → p = (k, v) ∨ p ∈ s := by
  intro s
  induction s with
  | nil => intro p hp; simpa [RBTree.insert] using hp
  | cons q rest ih =>
    obtain ⟨k', v'⟩ := q
    intro p hp
    by_cases h1 : k < k'
    · simp only [RBTree.insert, if_pos h1, List.mem_cons] at hp
      rcases hp with h | h | h
      · left; exact h
      · right; simp [h]
      · right; simp [h]
    · by_cases h2 : k = k'
      · simp only [RBTree.insert, if_neg h1, if_pos h2, List.mem_cons] at hp
        rcases hp with h | h
        · left; exact h
        · right; simp [h]
      · simp only [RBTree.insert, if_neg h1, if_neg h2, List.mem_cons] at hp
        rcases hp with hp | hp
        · right; simp [hp]
        · rcases ih p hp with h | h
          · left; exact h
          · right; simp [h]

theorem RBTree.insert_sorted (k : Int) (v : OHLC) :
    ∀ s : Window, WSorted s → WSorted (RBTree.insert s k v) := by
  intro s
  induction s with
  | nil => intro _; simp [RBTree.insert, WSorted]
  | cons q rest ih =>
    obtain ⟨k', v'⟩ := q
    intro hs
    rw [WSorted, List.pairwise_cons] at hs
    obtain ⟨hhead, htail⟩ := hs
    by_cases h1 : k < k'
    · rw [RBTree.insert]
      simp only [if_pos h1]
      rw [WSorted, List.pairwise_cons]
      constructor
      · intro p hp
        rcases List.mem_cons.1 hp with h | h
        · subst h; exact h1
        · exact lt_trans h1 (hhead p h)
      · rw [List.pairwise_cons]
        exact ⟨hhead, htail⟩
    · by_cases h2 : k = k'
      · rw [RBTree.insert]
        simp only [if_neg h1, if_pos h2]
        rw [WSorted, List.pairwise_cons]
        subst h2
        exact ⟨hhead, htail⟩
      · rw [RBTree.insert]
        simp only [if_neg h1, if_neg h2]
        rw [WSorted, List.pairwise_cons]
        constructor
        · intro p hp
          rcases RBTree.mem_insert k v rest p hp with h | h
          · subst h; omega
          · exact hhead p h
        · exact ih htail

theorem RBTree.length_insert_of_not_mem (k : Int) (v : OHLC) :
    ∀ s : Window, k ∉ s.map Prod.fst →
      (RBTree.insert s k v).length = s.length + 1 := by
  intro s
  induction s with
  | nil => intro _; simp [RBTree.insert]
  | cons q rest ih =>
    obtain ⟨k', v'⟩ := q
    intro hk
    have hk' : k ≠ k' := by
      intro h; exact hk (by simp [h])
    have hkrest : k ∉ rest.map Prod.fst := by
      intro h; exact hk (by simp [h])
    by_cases h1 : k < k'
    · simp [RBTree.insert, h1]
    · simp [RBTree.insert, h1, hk', ih hkrest]

theorem RBTree.length_insert_of_mem (k : Int) (v : OHLC) :
    ∀ s : Window, WSorted s → k ∈ s.map Prod.fst →
      (RBTree.insert s k v).length = s.length := by
  intro s
  induction s with
  | nil => intro _ h; simp at h
  | cons q rest ih =>
    obtain ⟨k', v'⟩ := q
    intro hs hk
    rw [WSorted, List.pairwise_cons] at hs
    obtain ⟨hhead, htail⟩ := hs
    by_cases h2 : k = k'
    · have h1 : ¬ k < k' := by omega
      simp [RBTree.insert, h1, h2]
    · have hkrest : k ∈ rest.map Prod.fst := by
        rcases List.mem_map.1 hk with ⟨p, hp, hpk⟩
        rcases List.mem_cons.1 hp with h | h
        · exfalso; apply h2; rw [← hpk, h]
        · exact List.mem_map.2 ⟨p, h, hpk⟩
      have h1 : ¬ k < k' := by
        rcases List.mem_map.1 hkrest with ⟨p, hp, hpk⟩
        have := hhead p hp
        omega
      simp [RBTree.insert, h1, h2, ih htail hkrest]

theorem RBTree.lookup_insert (k : Int) (v : OHLC) :
    ∀ s : Window, List.lookup k (RBTree.insert s k v) = some v := by
  intro s
  induction s with
  | nil => simp [RBTree.insert, List.lookup]
  | cons q rest ih =>
    obtain ⟨k', v'⟩ := q
    by_cases h1 : k < k'
    · simp [RBTree.insert, h1, List.lookup]
    · by_cases h2 : k = k'
      · simp [RBTree.insert, h1, h2, List.lookup]
      · have : (k == k') = false := by
          simp [h2]
        simp [RBTree.insert, h1, h2, List.lookup, this, ih]

/-! ### Facts about update sequences -/

theorem update_sorted (W : Nat) (s : Window) (u : OHLC) (hs : WSorted s) :
    WSorted (update W s u).2 := by
  by_cases h : s.length = W
  · cases s with
    | nil => simp [update, h, RBTree.popFirst]
    | cons p rest =>
      rw [WSorted, List.pairwise_cons] at hs
      simpa [update, h, RBTree.popFirst] using
        RBTree.insert_sorted u.time u rest hs.2
  · simpa [update, h] using RBTree.insert_sorted u.time u s hs

theorem update_keys_subset (W : Nat) (s : Window) (u : OHLC) :
    ∀ p ∈ (update W s u).2, p.1 = u.time ∨ p.1 ∈ s.map Prod.fst := by
  intro p hp
  by_cases h : s.length = W
  · cases s with
    | nil =>
      simp [update, h, RBTree.popFirst] at hp
    | cons q rest =>
      simp only [update, h, if_pos rfl, RBTree.popFirst] at hp
      rcases RBTree.mem_insert u.time u rest p hp with h' | h'
      · left; rw [h']
      · right; exact List.mem_map.2 ⟨p, by simp [h'], rfl⟩
  · simp only [update, if_neg h] at hp
    rcases RBTree.mem_insert u.time u s p hp with h' | h'
    · left; rw [h']
    · right; exact List.mem_map.2 ⟨p, h', rfl⟩

theorem update_length_fresh (W : Nat) (s : Window) (u : OHLC)
    (hs : s.length ≤ W) (hfresh : u.time ∉ s.map Prod.fst) :
    ((update W s u).2).length = min (s.length + 1) W := by
  by_cases h : s.length = W
  · cases s with
    | nil =>
      have hW : W = 0 := by simpa using h.symm
      simp [update, h, RBTree.popFirst, hW]
    | cons q rest =>
      have hfresh' : u.time ∉ rest.map Prod.fst := by
        intro hmem
        exact hfresh (by simp [hmem])
      have hlen := RBTree.length_insert_of_not_mem u.time u rest hfresh'
      have hupd : update W (q :: rest) u = (some q.2, RBTree.insert rest u.time u) := by
        simp [update, h, RBTree.popFirst]
      rw [hupd]
      show (RBTree.insert rest u.time u).length = min ((q :: rest).length + 1) W
      rw [hlen]
      simp only [List.length_cons] at h ⊢
      omega
  · have hlen := RBTree.length_insert_of_not_mem u.time u s hfresh
    simp only [update, if_neg h]
    simp only [hlen]
    omega

theorem runUpdates_output_get? (W : Nat) :
    ∀ (l : List OHLC) (s : Window) (i : Nat) (hi : i < l.length),
      ((runUpdates W s l).2).get? i =
        some (update W (runUpdates W s (l.take i)).1 (l.get ⟨i, hi⟩)).1 := by
  intro l
  induction l with
  | nil => intro s i hi; simp at hi
  | cons u us ih =>
    intro s i hi
    cases i with
    | zero => simp [runUpdates]
    | succ j =>
      have hj : j < us.length := by simpa using hi
      simp only [runUpdates, List.get?_cons_succ, List.take_succ_cons, List.get_cons_succ]
      exact ih (update W s u).2 j hj

theorem runUpdates_snoc (W : Nat) :
    ∀ (l : List OHLC) (s : Window) (b : OHLC),
      (runUpdates W s (l ++ [b])).1 = (update W (runUpdates W s l).1 b).2 := by
  intro l
  induction l with
  | nil => intro s b; simp [runUpdates]
  | cons u us ih =>
    intro s b
    simp only [List.cons_append, runUpdates]
    exact ih (update W s u).2 b

theorem runUpdates_state_inv (W : Nat) :
    ∀ (bars : List OHLC) (s : Window),
      WSorted s → s.length ≤ W →
      (∀ b ∈ bars, b.time ∉ s.map Prod.fst) →
      (bars.map OHLC.time).Nodup →
      WSorted (runUpdates W s bars).1 ∧
      (runUpdates W s bars).1.length = min (s.length + bars.length) W ∧
      ∀ p ∈ (runUpdates W s bars).1,
        p.1 ∈ s.map Prod.fst ∨ p.1 ∈ bars.map OHLC.time := by
  intro bars
  induction bars with
  | nil =>
    intro s hs hle _ _
    refine ⟨hs, by simpa using (by omega : min s.length W = s.length).symm ▸ rfl, ?_⟩
    · intro p hp
      left
      exact List.mem_map.2 ⟨p, hp, rfl⟩
  | cons u us ih =>
    intro s hs hle hfresh hnodup
    have hfresh_u : u.time ∉ s.map Prod.fst := hfresh u (by simp)
    have hsorted2 := update_sorted W s u hs
    have hlen2 := update_length_fresh W s u hle hfresh_u
    have hle2 : ((update W s u).2).length ≤ W := by omega
    have hcons := List.nodup_cons.1
      (show (u.time :: us.map OHLC.time).Nodup by simpa using hnodup)
    have hnodup_tail : (us.map OHLC.time).Nodup := hcons.2
    have hu_notin_us : u.time ∉ us.map OHLC.time := hcons.1
    have hfresh2 : ∀ b ∈ us, b.time ∉ ((update W s u).2).map Prod.fst := by
      intro b hb hmem
      rcases List.mem_map.1 hmem with ⟨p, hp, hpk⟩
      rcases update_keys_subset W s u p hp with h' | h'
      · apply hu_notin_us
        rw [← h', hpk]
        exact List.mem_map.2 ⟨b, hb, rfl⟩
      · apply hfresh b (by simp [hb])
        rw [← hpk]
        exact h'
    obtain ⟨ih1, ih2, ih3⟩ := ih (update W s u).2 hsorted2 hle2 hfresh2 hnodup_tail
    refine ⟨?_, ?_, ?_⟩
    · simpa [runUpdates] using ih1
    · have : (runUpdates W s (u :: us)).1 = (runUpdates W (update W s u).2 us).1 := by
        simp [runUpdates]
      rw [this, ih2, hlen2]
      simp only [List.length_cons]
      omega
    · intro p hp
      have hp' : p ∈ (runUpdates W (update W s u).2 us).1 := by
        simpa [runUpdates] using hp
      rcases ih3 p hp' with h' | h'
      · rcases List.mem_map.1 h' with ⟨q, hq, hqk⟩
        rcases update_keys_subset W s u q hq with h'' | h''
        · right
          rw [← hqk, h'']
          simp
        · left
          rw [← hqk]
          exact h''
      · right
        simp [h']

theorem update_length_le (W : Nat) (s : Window) (u : OHLC)
    (hs : s.length ≤ W) : ((update W s u).2).length ≤ W := by
  by_cases h : s.length = W
  · cases s with
    | nil =>
      simp [update, h, RBTree.popFirst]
    | cons q rest =>
      have hins := RBTree.insert_length_le u.time u rest
      have hupd : update W (q :: rest) u = (some q.2, RBTree.insert rest u.time u) := by
        simp [update, h, RBTree.popFirst]
      rw [hupd]
      show (RBTree.insert rest u.time u).length ≤ W
      simp only [List.length_cons] at h
      omega
  · have hins := RBTree.insert_length_le u.time u s
    simp only [update, if_neg h]
    show (RBTree.insert s u.time u).length ≤ W
    omega

theorem runUpdates_length_le (W : Nat) :
    ∀ (bars : List OHLC) (s : Window), s.length ≤ W →
      ((runUpdates W s bars).1).length ≤ W := by
  intro bars
  induction bars with
  | nil => intro s hs; simpa [runUpdates] using hs
  | cons u us ih =>
    intro s hs
    simpa [runUpdates] using ih (update W s u).2 (update_length_le W s u hs)

theorem lookup_map_pair (f : Nat → List OHLC) :
    ∀ (l : List Nat) (k : Nat), k ∈ l →
      List.lookup k (l.map (fun w => (w, f w))) = some (f k) := by
  intro l
  induction l with
  | nil => intro k hk; simp at hk
  | cons w ws ih =>
    intro k hk
    by_cases h : k = w
    · subst h; simp [List.lookup]
    · have hk' : k ∈ ws := by
        rcases List.mem_cons.1 hk with h' | h'
        · exact absurd h' h
        · exact h'
      have hbeq : (k == w) = false := by simp [h]
      simp [List.lookup, hbeq, ih k hk']

theorem checkDevs_first_len_error (W : Nat) :
    ∀ ms : List (Nat × List OHLC), (∀ p ∈ ms, p.1 ≤ W) →
      (∃ p ∈ ms, p.2.length ≠ W - p.1 + 1) →
      ∃ p ∈ ms, p.2.length ≠ W - p.1 + 1 ∧
        checkDevs W ms = some (lenMsg p.1 (W - p.1 + 1) p.2.length) := by
  intro ms
  induction ms with
  | nil => rintro _ ⟨p, hp, _⟩; simp at hp
  | cons q rest ih =>
    obtain ⟨w, vs⟩ := q
    rintro hW ⟨p, hp, hlen⟩
    have hwW : ¬ W < w := by
      have := hW (w, vs) (by simp)
      simp at this
      omega
    by_cases hq : vs.length ≠ W - w + 1
    · exact ⟨(w, vs), by simp, hq, by simp [checkDevs, hwW, hq]⟩
    · have hprest : p ∈ rest := by
        rcases List.mem_cons.1 hp with h | h
        · exfalso; apply hlen; rw [h]; simpa using (not_not.1 hq)
        · exact h
      rcases ih (fun r hr => hW r (by simp [hr])) ⟨p, hprest, hlen⟩ with ⟨r, hr, hrlen, heq⟩
      refine ⟨r, by simp [hr], hrlen, ?_⟩
      simpa [checkDevs, hwW, hq] using heq

/-- Claim C4: for every capacity `W` (including `W = 0`) and every sequence
of `update` calls starting from the empty window, the number of stored
entries never exceeds `W`.  (Every prefix of a call sequence is itself a
call sequence, so quantifying over `bars` covers the state after each
call.) -/
theorem C4_capacity_invariant (W : Nat) (bars : List OHLC) :
    ((runUpdates W [] bars).1).length ≤ W :=
  runUpdates_length_le W bars [] (by simp)

/-- Claim C5, counterexample: on a capacity-0 engine, `update` with the
zero bar returns `None` (and stores nothing), not `Some(zero bar)` as the
claim states.  This matches the repository's own test
`test_null_universe_update`, which asserts `updated == Ok(None)`. -/
theorem C5_counterexample :
    (update 0 [] OHLC.zero).1 = none ∧
    (update 0 [] OHLC.zero).1 ≠ some OHLC.zero := by
  refine ⟨rfl, ?_⟩
  intro h
  cases h

/-- Claim C5, amended: on a capacity-0 engine every `update` call returns
`None` and the window stays empty (the bar is never inserted: the guard
`len == capacity` holds immediately, `pop_first` on the empty tree yields
`None`, and the function returns early without inserting). -/
theorem C5_amended_zero_capacity (bars : List OHLC) :
    runUpdates 0 [] bars = ([], bars.map (fun _ => none)) := by
  induction bars with
  | nil => rfl
  | cons u us ih =>
    simp [runUpdates, update, RBTree.popFirst, ih]

/-- Claim C7: whenever some requested window length exceeds the capacity,
`means` fails with the domain error naming the (first such) offending
length and the capacity, whatever the window currently holds (`s` is
arbitrary, including empty and partially filled).  The window itself is
untouched: `means` is a read-only function of the window in this model,
mirroring the `&self` receiver and read lock in the source. -/
theorem C7_overflow_error (W : Nat) (s : Window) (winds : List Nat)
    (h : ∃ L ∈ winds, W < L) :
    ∃ L ∈ winds, W < L ∧ means W s winds = RResult.error (overflowMsg L W) := by
  rcases checkWindows_first_error W winds h with ⟨w, hmem, hWw, heq⟩
  exact ⟨w, hmem, hWw, by simp [means, heq]⟩

/-- Witness for C7 at capacity 2, empty window, requested length 3. -/
theorem C7_witness :
    ∃ L ∈ [3], 2 < L ∧ means 2 [] [3] = RResult.error (overflowMsg L 2) :=
  C7_overflow_error 2 [] [3] ⟨3, by simp, by omega⟩

/-- Claim C2, counterexample: capacity `W = 2`, a window holding `n = 1`
bar, requested length `L = 1 ≤ n`.  The claim demands a sequence of
`n - L + 1 = 1` averages, but the code computes
`number_shifts = W - (L - 1) = 2` from the *capacity* and reads
`prefix_sum[2]` from a 2-element prefix-sum sequence, which panics, so no
sequence at all is returned. -/
theorem C2_counterexample :
    means 2 [((0 : Int), OHLC.zero)] [1] = RResult.panicked ∧
    ¬ ∃ res, means 2 [((0 : Int), OHLC.zero)] [1] = RResult.ok res := by
  have h1 : means 2 [((0 : Int), OHLC.zero)] [1] = RResult.panicked := by rfl
  refine ⟨h1, ?_⟩
  rintro ⟨res, h⟩
  rw [h1] at h
  cases h

/-- Claim C2, amended: the stated result-length law holds when the window
is full (`n = W`, the only case exercised by the repository's tests): for
every requested `L` with `1 ≤ L ≤ W`, `means` succeeds and the sequence
for `L` has exactly `n - L + 1` elements in chronological order, the
`i`-th being the average of the `L` consecutive bars starting at window
position `i`.  (When `n < W` the computation instead panics on an
out-of-bounds prefix-sum access — see the counterexample — so the `L > n`
clause of the original claim never produces an empty sequence.) -/
theorem C2_amended_full_window (W : Nat) (s : Window) (winds : List Nat)
    (hfull : s.length = W) (hw : ∀ L ∈ winds, 1 ≤ L ∧ L ≤ W) :
    means W s winds = RResult.ok (winds.map (fun L => (L,
      (List.range (s.length - L + 1)).map
        (fun i => (rangeSum (s.map Prod.snd) i L).div L)))) := by
  rw [hfull]
  exact means_full_spec W s winds hfull hw

/-- Witness for the amended C2 at capacity 1 with one stored bar. -/
theorem C2_amended_witness :
    means 1 [((0 : Int), constBar 0)] [1] = RResult.ok ([1].map (fun L => (L,
      (List.range ([((0 : Int), constBar 0)].length - L + 1)).map
        (fun i => (rangeSum ([((0 : Int), constBar 0)].map Prod.snd) i L).div L)))) :=
  C2_amended_full_window 1 [((0 : Int), constBar 0)] [1] rfl (by decide)

/-- Claim C10: on a full window (`n = W`) with every requested length `L`
satisfying `1 ≤ L ≤ W`, all prefix-sum accesses of `means` are in bounds
and no `usize` subtraction underflows, so the call returns `Ok` with one
entry for every requested length. -/
theorem C10_full_window_safe (W : Nat) (s : Window) (winds : List Nat)
    (hfull : s.length = W) (hw : ∀ L ∈ winds, 1 ≤ L ∧ L ≤ W) :
    ∃ m, means W s winds = RResult.ok m ∧
      ∀ L ∈ winds, List.lookup L m =
        some ((List.range (W - L + 1)).map
          (fun i => (rangeSum (s.map Prod.snd) i L).div L)) := by
  refine ⟨_, means_full_spec W s winds hfull hw, ?_⟩
  intro L hL
  exact lookup_map_pair
    (fun L => (List.range (W - L + 1)).map
      (fun i => (rangeSum (s.map Prod.snd) i L).div L)) winds L hL

/-- Witness for C10 at capacity 1 with one stored bar. -/
theorem C10_witness :
    ∃ m, means 1 [((0 : Int), constBar 0)] [1] = RResult.ok m ∧
      ∀ L ∈ [1], List.lookup L m =
        some ((List.range (1 - L + 1)).map
          (fun i => (rangeSum ([((0 : Int), constBar 0)].map Prod.snd) i L).div L)) :=
  C10_full_window_safe 1 [((0 : Int), constBar 0)] [1] rfl (by decide)

/-- Claim C8, counterexample: capacity `W = 2` with a window holding
`n = 1` bar and a supplied entry for `L = 1` of length `2`.  The claim's
check (`length = n - L + 1 = 1`) fails, so it predicts a length-mismatch
domain error; the code instead checks against `W - L + 1 = 2`, accepts the
entry, and proceeds to the unconditional `Not implemented yet` failure —
the validation compares against the capacity, not the current size. -/
theorem C8_counterexample :
    [OHLC.zero, OHLC.zero].length ≠ [((0 : Int), OHLC.zero)].length - 1 + 1 ∧
    deviations 2 [((0 : Int), OHLC.zero)] [(1, [OHLC.zero, OHLC.zero])] =
      RResult.error "Not implemented yet" ∧
    deviations 2 [((0 : Int), OHLC.zero)] [(1, [OHLC.zero, OHLC.zero])] ≠
      RResult.error
        (lenMsg 1 ([((0 : Int), OHLC.zero)].length - 1 + 1) [OHLC.zero, OHLC.zero].length) := by
  refine ⟨by decide, rfl, ?_⟩
  intro h
  rw [(rfl : deviations 2 [((0 : Int), OHLC.zero)] [(1, [OHLC.zero, OHLC.zero])] =
      RResult.error "Not implemented yet")] at h
  have : "Not implemented yet" =
      lenMsg 1 ([((0 : Int), OHLC.zero)].length - 1 + 1) [OHLC.zero, OHLC.zero].length := by
    injection h
  exact absurd this (by decide)

/-- Claim C8, amended: `deviations` checks each supplied sequence's length
against `W - L + 1`, where `W` is the configured *capacity* (not the
current window size `n`); whenever every supplied length is at most `W`
and some entry's sequence length differs from `W - L + 1`, it fails with
the domain error naming the expected (`W - L + 1`) and actual lengths of
the first such entry. -/
theorem C8_amended_capacity_check (W : Nat) (s : Window)
    (ms : List (Nat × List OHLC))
    (hW : ∀ p ∈ ms, p.1 ≤ W)
    (hbad : ∃ p ∈ ms, p.2.length ≠ W - p.1 + 1) :
    ∃ p ∈ ms, p.2.length ≠ W - p.1 + 1 ∧
      deviations W s ms = RResult.error (lenMsg p.1 (W - p.1 + 1) p.2.length) := by
  rcases checkDevs_first_len_error W ms hW hbad with ⟨p, hp, hlen, heq⟩
  exact ⟨p, hp, hlen, by simp [deviations, heq]⟩

/-- Witness for the amended C8 at capacity 2 with an empty window and a
supplied length-1 sequence for window length 1 (expected 2). -/
theorem C8_amended_witness :
    ∃ p ∈ [(1, [OHLC.zero])], p.2.length ≠ 2 - p.1 + 1 ∧
      deviations 2 [] [(1, [OHLC.zero])] =
        RResult.error (lenMsg p.1 (2 - p.1 + 1) p.2.length) :=
  C8_amended_capacity_check 2 [] [(1, [OHLC.zero])]
    (by decide) ⟨(1, [OHLC.zero]), by simp, by decide⟩

/-- Claim C9, counterexample: capacity `W = 2`, a full window of two bars,
and a supplied means entry for `L = 2` of the correct length
`W - L + 1 = 1`.  All validation checks pass, yet the accumulation loop
indexes `cloned[2][1]` in a vector of length 1 and panics, so on this
input `deviations` does not return a failure result (it returns nothing
at all) — refuting the claim that it always returns a failure result. -/
theorem C9_counterexample :
    deviations 2 [((0 : Int), OHLC.zero), ((1 : Int), constBar 1)] [(2, [OHLC.zero])] =
      RResult.panicked ∧
    ¬ ∃ msg, deviations 2 [((0 : Int), OHLC.zero), ((1 : Int), constBar 1)] [(2, [OHLC.zero])] =
      RResult.error msg := by
  have h1 : deviations 2 [((0 : Int), OHLC.zero), ((1 : Int), constBar 1)] [(2, [OHLC.zero])] =
      RResult.panicked := by rfl
  refine ⟨h1, ?_⟩
  rintro ⟨msg, h⟩
  rw [h1] at h
  cases h

/-- Claim C9, amended: `deviations` never returns the accumulated values
as a success: for every capacity, window and supplied mapping it either
returns a failure result (a validation error or the unconditional
`Not implemented yet`) or panics on an out-of-bounds accumulation index
(possible even when all validation checks pass, see the counterexample);
in no case does it return `Ok`. -/
theorem C9_never_ok (W : Nat) (s : Window) (ms : List (Nat × List OHLC)) :
    ∀ out, deviations W s ms ≠ RResult.ok out := by
  intro out h
  unfold deviations at h
  cases hc : checkDevs W ms with
  | some msg => rw [hc] at h; cases h
  | none =>
    rw [hc] at h
    cases hd : devOuter ms 0 s (initCloned ms) with
    | none => rw [hd] at h; cases h
    | some cl => rw [hd] at h; cases h

/-- Claim C6: inserting a bar whose timestamp is already a key of the
window (below capacity) triggers no eviction, keeps the window size
unchanged, and overwrites the stored value for that timestamp with the
new bar.  The overwrite behaviour of `RBTree::insert` is modelled from
the spec, the tree crate's source not being part of this repository. -/
theorem C6_overwrite (W : Nat) (s : Window) (u : OHLC)
    (hs : WSorted s) (hlt : s.length < W) (hmem : u.time ∈ s.map Prod.fst) :
    (update W s u).1 = none ∧
    ((update W s u).2).length = s.length ∧
    List.lookup u.time (update W s u).2 = some u := by
  have hne : ¬ s.length = W := by omega
  refine ⟨?_, ?_, ?_⟩
  · simp [update, hne]
  · simp only [update, if_neg hne]
    exact RBTree.length_insert_of_mem u.time u s hs hmem
  · simp only [update, if_neg hne]
    exact RBTree.lookup_insert u.time u s

/-- Witness for C6: capacity 2, a window holding one bar under key 5,
updated with a bar whose timestamp is also 5. -/
theorem C6_witness :
    (update 2 [((5 : Int), constBar 1)] (constBar 5)).1 = none ∧
    ((update 2 [((5 : Int), constBar 1)] (constBar 5)).2).length =
      [((5 : Int), constBar 1)].length ∧
    List.lookup (constBar 5).time (update 2 [((5 : Int), constBar 1)] (constBar 5)).2 =
      some (constBar 5) :=
  C6_overwrite 2 [((5 : Int), constBar 1)] (constBar 5)
    (by simp) (by decide) (by decide)

/-- Claim C3: starting from an empty engine of capacity `W ≥ 1` and
feeding bars with pairwise-distinct timestamps, the `i`-th `update` call
(0-indexed) returns no eviction while the window is still filling
(`i < W`); once capacity is reached (`i ≥ W`) it returns exactly the value
stored under the least timestamp of the window as it stood just before the
call, and the new window is that pre-call window with its least-timestamp
entry removed and the new bar inserted. -/
theorem C3_eviction (W : Nat) (hW : 1 ≤ W) (bars : List OHLC)
    (hd : (bars.map OHLC.time).Nodup) (i : Nat) (hi : i < bars.length) :
    (i < W → ((runUpdates W [] bars).2).get? i = some none) ∧
    (W ≤ i → ∃ k v rest b,
      bars.get? i = some b ∧
      (runUpdates W [] (bars.take i)).1 = (k, v) :: rest ∧
      ((runUpdates W [] bars).2).get? i = some (some v) ∧
      (∀ p ∈ (runUpdates W [] (bars.take i)).1, k ≤ p.1) ∧
      (runUpdates W [] (bars.take (i + 1))).1 =
        RBTree.insert rest b.time b) := by
  have hd_take : ((bars.take i).map OHLC.time).Nodup := by
    have hsub : ((bars.take i).map OHLC.time).Sublist (bars.map OHLC.time) :=
      (List.take_sublist i bars).map OHLC.time
    exact List.Nodup.sublist hsub hd
  have hinv := runUpdates_state_inv W (bars.take i) []
    (by simp [WSorted]) (by simp) (by simp) hd_take
  obtain ⟨hsorted, hlen, _⟩ := hinv
  have htake_len : (bars.take i).length = i := by
    rw [List.length_take]
    omega
  rw [htake_len] at hlen
  simp only [List.length_nil, Nat.zero_add] at hlen
  have hout := runUpdates_output_get? W bars [] i hi
  constructor
  · intro hiW
    have hlen' : (runUpdates W [] (bars.take i)).1.length = i := by
      rw [hlen]; omega
    have hne : ¬ (runUpdates W [] (bars.take i)).1.length = W := by omega
    rw [hout]
    simp [update, hne]
  · intro hWi
    have hlen' : (runUpdates W [] (bars.take i)).1.length = W := by
      rw [hlen]; omega
    cases hsb : (runUpdates W [] (bars.take i)).1 with
    | nil =>
      rw [hsb] at hlen'
      simp at hlen'
      omega
    | cons p rest =>
      obtain ⟨k, v⟩ := p
      set b := bars.get ⟨i, hi⟩ with hb
      have hbget : bars.get? i = some b := List.get?_eq_get hi
      have hupd : update W ((k, v) :: rest) b = (some v, RBTree.insert rest b.time b) := by
        rw [hsb] at hlen'
        simp [update, hlen', RBTree.popFirst]
      refine ⟨k, v, rest, b, hbget, rfl, ?_, ?_, ?_⟩
      · rw [hout, hsb, hupd]
      · intro p hp
        rw [hsb] at hsorted
        rw [WSorted, List.pairwise_cons] at hsorted
        rcases List.mem_cons.1 hp with h | h
        · rw [h]
        · exact le_of_lt (hsorted.1 p h)
      · have htake : bars.take (i + 1) = bars.take i ++ [b] := by
          rw [List.take_succ]
          congr 1
          rw [← List.get?_eq_getElem?, hbget]
          rfl
        rw [htake, runUpdates_snoc W (bars.take i) [] b, hsb, hupd]

/-- Witness for C3 at capacity 1 with two distinct-timestamp bars: the
first update evicts nothing; the second evicts the bar stored under the
least (only) timestamp. -/
theorem C3_witness :
    ((runUpdates 1 [] [constBar 0, constBar 1]).2).get? 0 = some none ∧
    (∃ k v rest b,
      [constBar 0, constBar 1].get? 1 = some b ∧
      (runUpdates 1 [] ([constBar 0, constBar 1].take 1)).1 = (k, v) :: rest ∧
      ((runUpdates 1 [] [constBar 0, constBar 1]).2).get? 1 = some (some v) ∧
      (∀ p ∈ (runUpdates 1 [] ([constBar 0, constBar 1].take 1)).1, k ≤ p.1) ∧
      (runUpdates 1 [] ([constBar 0, constBar 1].take 2)).1 =
        RBTree.insert rest b.time b) :=
  ⟨(C3_eviction 1 (by decide) [constBar 0, constBar 1] (by decide) 0 (by decide)).1
      (by decide),
   (C3_eviction 1 (by decide) [constBar 0, constBar 1] (by decide) 1 (by decide)).2
      (by decide)⟩

theorem sumL_map_constBar : ∀ l : List Nat, sumL (l.map constBar) = constBar l.sum := by
  intro l
  induction l with
  | nil => simp [sumL, constBar, OHLC.zero]
  | cons i t ih =>
    simp only [List.map_cons, sumL, ih, List.sum_cons]
    simp [constBar, OHLC.add, Nat.cast_add]

/-- Claim C1: on the full capacity-100 window whose bar `i` has every
field equal to `i`, `means` for length 1 returns the original 100 bars
unchanged, for length 2 the 99 consecutive pairwise averages
`(bar i + bar (i+1)) / 2`, and for length 100 a single bar whose
`f32`-modelled fields are the arithmetic mean `49.5 = 99/2` of the indices
`0..99` while the integer fields `time` and `count` are `49`, the same
mean under truncated integer division (`4950 / 100`). -/
theorem C1_analytical_means :
    means 100 win100 [1, 2, 100] = RResult.ok
      [ (1, (List.range 100).map constBar),
        (2, (List.range 99).map (fun i => ((constBar i).add (constBar (i + 1))).div 2)),
        (100, [⟨49, 99/2, 99/2, 99/2, 99/2, 99/2, 99/2, 49⟩]) ] := by
  have hfull : win100.length = 100 := by simp [win100]
  have hw : ∀ L ∈ [1, 2, 100], 1 ≤ L ∧ L ≤ 100 := by decide
  rw [means_full_spec 100 win100 [1, 2, 100] hfull hw]
  have hbars : win100.map Prod.snd = (List.range 100).map constBar := by
    simp [win100, List.map_map]
  rw [hbars]
  congr 1
  simp only [List.map_cons, List.map_nil, List.cons.injEq, Prod.mk.injEq,
    true_and, and_true]
  have h100 : (100 : Nat) - 1 + 1 = 100 := by norm_num
  have h99 : (100 : Nat) - 2 + 1 = 99 := by norm_num
  have h1 : (100 : Nat) - 100 + 1 = 1 := by norm_num
  refine ⟨?_, ?_, ?_⟩
  · rw [h100]
    apply List.map_congr_left
    intro i hi
    have hi' : i < 100 := List.mem_range.1 hi
    rw [rangeSum_map_range constBar 100 i 1 (by omega), List.range'_one]
    simp [sumL, OHLC.add_zero, OHLC.div_one]
  · rw [h99]
    apply List.map_congr_left
    intro i hi
    have hi' : i < 99 := List.mem_range.1 hi
    rw [rangeSum_map_range constBar 100 i 2 (by omega)]
    rw [show List.range' i 2 = [i, i + 1] from rfl]
    simp [sumL, OHLC.add_zero]
  · rw [h1]
    rw [show List.range 1 = [0] from rfl]
    simp only [List.map_cons, List.map_nil, List.cons.injEq, and_true]
    rw [rangeSum_map_range constBar 100 0 100 (by omega), ← List.range_eq_range',
      sumL_map_constBar]
    rw [show (List.range 100).sum = 4950 by decide]
    simp only [constBar, OHLC.div, OHLC.mk.injEq]
    have ht : ((4950 : Nat) : Int).tdiv ((100 : Nat) : Int) = 49 := by decide
    have hq : ((4950 : Nat) : ℚ) / ((100 : Nat) : ℚ) = 99 / 2 := by
      push_cast
      norm_num
    exact ⟨ht, hq, hq, hq, hq, hq, hq, ht⟩
